import Mathlib

/-!
# Verification of the DataStream library

Shallow embedding of `DataStream.hpp` (the endianness/direction parameterised
byte `Stream`) and `FixedPointQuantizer.hpp` (the fixed-point quantizer).

Modelling conventions:
* A fixed-width arithmetic value of byte width `k` is represented by its bit
  pattern, a natural number `< 2^(8*k)` (equivalently `< 256^k`).  This covers
  signed and unsigned integers of 8–64 bits and floating point values of
  16/32/64 bits uniformly, including every NaN and infinity pattern, and makes
  "bit-for-bit" comparison plain equality.
* A memory buffer is a `List Nat` of byte values (`< 256`).
* The host byte order `std::endian::native` is a parameter `native : Endian`;
  the stream's template argument `endiannes` is a parameter `e : Endian`.
* Fallible operations return `Except Err _`; a C++ `throw` before any mutation
  becomes an `Except.error` carrying no new state.
* Quantizer arithmetic (`FixedPointQuantizer::to_fpq` / `from_fpq`) is
  modelled in exact rational arithmetic, with the float→integer cast modelled
  as truncation toward zero (the host's default conversion), and the
  intermediate integer code as a mathematical integer.
-/

namespace DataStream

/-- Byte order, mirroring `std::endian`. -/
inductive Endian : Type
  | little : Endian
  | big : Endian
deriving DecidableEq, Repr

/-- The `k` bytes of the bit pattern `v`, least significant byte first. -/
def toBytesLE : Nat → Nat → List Nat
  | 0, _ => []
  | k + 1, v => v % 256 :: toBytesLE k (v / 256)

/-- Recombine a little-endian byte list into a natural number. -/
def fromBytesLE : List Nat → Nat
  | [] => 0
  | b :: bs => b + 256 * fromBytesLE bs

/-- `DataStream::byteswap` (DataStream.hpp:42-61) modelled on `k`-byte bit
patterns: the byte sequence of the value is reversed.  For floating point
types the C++ code bit-casts to the same-width unsigned integer, calls
`std::byteswap` and bit-casts back, so on bit patterns the floating-point
overload computes exactly the same byte reversal as the integral one. -/
def byteswap (k v : Nat) : Nat :=
  fromBytesLE (toBytesLE k v).reverse

theorem length_toBytesLE (k v : Nat) : (toBytesLE k v).length = k := by
  induction k generalizing v with
  | zero => rfl
  | succ k ih => simp [toBytesLE, ih]

theorem toBytesLE_lt (k v : Nat) : ∀ b ∈ toBytesLE k v, b < 256 := by
  induction k generalizing v with
  | zero => intro b hb; simp [toBytesLE] at hb
  | succ k ih =>
    intro b hb
    simp only [toBytesLE, List.mem_cons] at hb
    rcases hb with h | h
    · subst h; omega
    · exact ih _ b h

theorem fromBytesLE_toBytesLE (k v : Nat) :
    fromBytesLE (toBytesLE k v) = v % 256 ^ k := by
  induction k generalizing v with
  | zero => simp [toBytesLE, fromBytesLE, Nat.mod_one]
  | succ k ih =>
    simp only [toBytesLE, fromBytesLE, ih]
    rw [pow_succ, mul_comm (256 ^ k) 256, Nat.mod_mul]

theorem fromBytesLE_toBytesLE_of_lt {k v : Nat} (h : v < 256 ^ k) :
    fromBytesLE (toBytesLE k v) = v := by
  rw [fromBytesLE_toBytesLE, Nat.mod_eq_of_lt h]

theorem fromBytesLE_lt (bs : List Nat) (h : ∀ b ∈ bs, b < 256) :
    fromBytesLE bs < 256 ^ bs.length := by
  induction bs with
  | nil => simp [fromBytesLE]
  | cons b bs ih =>
    have hb : b < 256 := h b (List.mem_cons_self b bs)
    have hrest : fromBytesLE bs < 256 ^ bs.length :=
      ih fun x hx => h x (List.mem_cons_of_mem b hx)
    simp only [fromBytesLE, List.length_cons, pow_succ]
    calc b + 256 * fromBytesLE bs
        ≤ 255 + 256 * fromBytesLE bs := by omega
      _ < 256 * (fromBytesLE bs + 1) := by omega
      _ ≤ 256 * 256 ^ bs.length := by
          exact Nat.mul_le_mul_left 256 (by omega)
      _ = 256 ^ bs.length * 256 := by ring

theorem toBytesLE_fromBytesLE (bs : List Nat) (h : ∀ b ∈ bs, b < 256) :
    toBytesLE bs.length (fromBytesLE bs) = bs := by
  induction bs with
  | nil => rfl
  | cons b bs ih =>
    have hb : b < 256 := h b (List.mem_cons_self b bs)
    have hrest : ∀ x ∈ bs, x < 256 := fun x hx => h x (List.mem_cons_of_mem b hx)
    simp only [List.length_cons, toBytesLE, fromBytesLE]
    have h1 : (b + 256 * fromBytesLE bs) % 256 = b := by omega
    have h2 : (b + 256 * fromBytesLE bs) / 256 = fromBytesLE bs := by omega
    rw [h1, h2, ih hrest]

theorem byteswap_lt (k v : Nat) : byteswap k v < 256 ^ k := by
  have h := fromBytesLE_lt (toBytesLE k v).reverse
    (fun b hb => toBytesLE_lt k v b (List.mem_reverse.mp hb))
  rwa [List.length_reverse, length_toBytesLE] at h

theorem byteswap_byteswap {k v : Nat} (h : v < 256 ^ k) :
    byteswap k (byteswap k v) = v := by
  unfold byteswap
  have hlen : (toBytesLE k v).reverse.length = k := by
    rw [List.length_reverse, length_toBytesLE]
  have hmem : ∀ b ∈ (toBytesLE k v).reverse, b < 256 :=
    fun b hb => toBytesLE_lt k v b (List.mem_reverse.mp hb)
  have h1 : toBytesLE k (fromBytesLE (toBytesLE k v).reverse)
      = (toBytesLE k v).reverse := by
    have h2 := toBytesLE_fromBytesLE (toBytesLE k v).reverse hmem
    rwa [hlen] at h2
  rw [h1, List.reverse_reverse, fromBytesLE_toBytesLE_of_lt h]

/-- The in-memory byte sequence of a `k`-byte value `v` on a host of byte
order `native` (what `reinterpret_cast<const uint8_t*>(&v)` exposes). -/
def natBytes (native : Endian) (k v : Nat) : List Nat :=
  match native with
  | .little => toBytesLE k v
  | .big => (toBytesLE k v).reverse

/-- Reassemble a value from its in-memory byte sequence on a host of byte
order `native`. -/
def natOfBytes (native : Endian) (bs : List Nat) : Nat :=
  match native with
  | .little => fromBytesLE bs
  | .big => fromBytesLE bs.reverse

theorem length_natBytes (native : Endian) (k v : Nat) :
    (natBytes native k v).length = k := by
  cases native <;> simp [natBytes, length_toBytesLE]

theorem natOfBytes_natBytes {native : Endian} {k v : Nat} (h : v < 256 ^ k) :
    natOfBytes native (natBytes native k v) = v := by
  cases native <;>
    simp [natBytes, natOfBytes, List.reverse_reverse,
      fromBytesLE_toBytesLE_of_lt h]

/-- `Stream::byteswap` (DataStream.hpp:90-94): swap exactly when the stream's
byte order differs from the host's. -/
def condswap (native e : Endian) (k v : Nat) : Nat :=
  if e ≠ native then byteswap k v else v

theorem condswap_lt {native e : Endian} {k v : Nat} (h : v < 256 ^ k) :
    condswap native e k v < 256 ^ k := by
  unfold condswap
  split
  · exact byteswap_lt k v
  · exact h

theorem condswap_condswap {native e : Endian} {k v : Nat} (h : v < 256 ^ k) :
    condswap native e k (condswap native e k v) = v := by
  unfold condswap
  split
  · exact byteswap_byteswap h
  · rfl

/-- Error kinds surfaced by the buffer-backed stream operations:
`std::out_of_range` (bounds) and `std::logic_error` (unsupported op). -/
inductive Err : Type
  | boundsError : Err
  | unsupportedOperationError : Err
deriving DecidableEq, Repr

/-- The buffer-backed `DataStream::Stream` state: the borrowed byte buffer
(`data`/`underlying_data`) and the sequential cursor (`index`). -/
structure Stream : Type where
  data : List Nat
  index : Nat
deriving DecidableEq, Repr

/-- Overwrite `bs.length` bytes of `buf` starting at position `i`
(`std::copy_n(bs, bs.length, buf + i)`). -/
def setBytes (buf : List Nat) (i : Nat) (bs : List Nat) : List Nat :=
  buf.take i ++ bs ++ buf.drop (i + bs.length)

/-- The `k` bytes of `buf` starting at position `i`. -/
def slice (buf : List Nat) (i k : Nat) : List Nat :=
  (buf.drop i).take k

/-- The private `Stream::write` (DataStream.hpp:96-109), buffer branch:
bounds check first, then copy the bytes at the cursor and advance it. -/
def Stream.writeBytes (s : Stream) (bs : List Nat) : Except Err Stream :=
  if s.index + bs.length > s.data.length then .error .boundsError
  else .ok ⟨setBytes s.data s.index bs, s.index + bs.length⟩

/-- The private `Stream::read` (DataStream.hpp:111-124), buffer branch:
bounds check first, then copy out the bytes at the cursor and advance it. -/
def Stream.readBytes (s : Stream) (k : Nat) : Except Err (List Nat × Stream) :=
  if s.index + k > s.data.length then .error .boundsError
  else .ok (slice s.data s.index k, ⟨s.data, s.index + k⟩)

/-- `Stream::operator<<` (DataStream.hpp:182-190): conditionally byteswap the
value, then write its `sizeof T = k` in-memory bytes sequentially. -/
def Stream.writeValue (native e : Endian) (s : Stream) (k v : Nat) :
    Except Err Stream :=
  s.writeBytes (natBytes native k (condswap native e k v))

/-- `Stream::operator>>` (DataStream.hpp:192-200): read `sizeof T = k` bytes
sequentially into the value's storage, then conditionally byteswap it. -/
def Stream.readValue (native e : Endian) (s : Stream) (k : Nat) :
    Except Err (Nat × Stream) :=
  match s.readBytes k with
  | .error er => .error er
  | .ok (bs, s') => .ok (condswap native e k (natOfBytes native bs), s')

/-- `SIZE_MAX + 1`: arithmetic on `std::size_t` offsets such as
`start_index + sizeof(T)` wraps modulo `2^64`. -/
def size_t_mod : Nat := 2 ^ 64

/-- Outcome of a direct-access `set`/`get` call.  `unchecked` marks the case
where `start_index + sizeof(T)` wrapped around `SIZE_MAX`: the source's
bounds test then compares the wrapped (tiny) sum, passes, and `std::copy_n`
touches memory far outside the buffer — undefined behavior, with no thrown
error and no guarantee about any state, the cursor included. -/
inductive DirectResult (α : Type) : Type
  | ok (a : α)
  | boundsError
  | unchecked
deriving DecidableEq, Repr

/-- `Stream::set` (DataStream.hpp:202-214), buffer branch: conditionally
byteswap, then test `start_index + sizeof(T) > this->data.size()` — the sum
computed in wrapping `std::size_t` arithmetic — and on pass copy the bytes
at the explicit offset without touching the cursor.  When `start + k`
exceeds `SIZE_MAX` the wrapped sum escapes the test and the copy is an
unchecked out-of-bounds write (`DirectResult.unchecked`). -/
def Stream.set (native e : Endian) (s : Stream) (k v start : Nat) :
    DirectResult Stream :=
  let output := condswap native e k v
  if (start + k) % size_t_mod > s.data.length then .boundsError
  else if start + k ≤ s.data.length then
    .ok ⟨setBytes s.data start (natBytes native k output), s.index⟩
  else .unchecked

/-- `Stream::get` (DataStream.hpp:216-228), buffer branch: the same
wrapping bounds test at the explicit offset, then copy the bytes out and
conditionally byteswap.  The C++ method is `const`: it cannot change the
stream, which the embedding reflects by returning only the value; the
`unchecked` outcome again marks the wrapped-offset out-of-bounds read. -/
def Stream.get (native e : Endian) (s : Stream) (k start : Nat) :
    DirectResult Nat :=
  if (start + k) % size_t_mod > s.data.length then .boundsError
  else if start + k ≤ s.data.length then
    .ok (condswap native e k (natOfBytes native (slice s.data start k)))
  else .unchecked

/-- For offsets whose `start + k` does not overflow `std::size_t`, the
wrapping bounds test is exact and `set` is an ordinary checked operation. -/
theorem set_no_wrap (native e : Endian) (s : Stream) (k v start : Nat)
    (h : start + k < size_t_mod) :
    Stream.set native e s k v start =
      if start + k > s.data.length then .boundsError
      else .ok ⟨setBytes s.data start (natBytes native k (condswap native e k v)),
                s.index⟩ := by
  unfold Stream.set
  rw [Nat.mod_eq_of_lt h]
  by_cases hgt : start + k > s.data.length
  · rw [if_pos hgt, if_pos hgt]
  · rw [if_neg hgt, if_neg hgt, if_pos (Nat.le_of_not_lt hgt)]

theorem length_setBytes (buf bs : List Nat) (i : Nat)
    (h : i + bs.length ≤ buf.length) :
    (setBytes buf i bs).length = buf.length := by
  simp only [setBytes, List.length_append, List.length_take, List.length_drop]
  omega

theorem slice_setBytes_self (buf bs : List Nat) (i : Nat)
    (h : i + bs.length ≤ buf.length) :
    slice (setBytes buf i bs) i bs.length = bs := by
  unfold setBytes slice
  rw [List.append_assoc]
  have hi : i ≤ buf.length := by omega
  have hlen : (buf.take i).length = i := List.length_take_of_le hi
  rw [List.drop_append_of_le_length (by omega),
    List.drop_eq_nil_of_le (by omega), List.nil_append]
  exact List.take_left bs _

theorem slice_setBytes_of_le (buf bs : List Nat) (i k j : Nat)
    (hik : i + k ≤ j) (hj : j ≤ buf.length) :
    slice (setBytes buf j bs) i k = slice buf i k := by
  unfold setBytes slice
  rw [List.append_assoc]
  have hlen : (buf.take j).length = j := List.length_take_of_le hj
  rw [List.drop_append_of_le_length (by omega),
    List.take_append_of_le_length (by rw [List.length_drop]; omega),
    List.drop_take j i buf]
  rw [List.take_take k (j - i) _, Nat.min_eq_left (by omega)]

theorem writeValue_ok (native e : Endian) (s : Stream) (k v : Nat)
    (hk : s.index + k ≤ s.data.length) :
    Stream.writeValue native e s k v =
      .ok ⟨setBytes s.data s.index (natBytes native k (condswap native e k v)),
           s.index + k⟩ := by
  unfold Stream.writeValue Stream.writeBytes
  rw [length_natBytes]
  simp only [if_neg (by omega : ¬ s.index + k > s.data.length)]

theorem readValue_of_slice (native e : Endian) (s : Stream) (k v : Nat)
    (hk : s.index + k ≤ s.data.length) (hv : v < 256 ^ k)
    (hs : slice s.data s.index k = natBytes native k (condswap native e k v)) :
    Stream.readValue native e s k = .ok (v, ⟨s.data, s.index + k⟩) := by
  unfold Stream.readValue Stream.readBytes
  simp only [if_neg (by omega : ¬ s.index + k > s.data.length)]
  rw [hs, natOfBytes_natBytes (condswap_lt hv), condswap_condswap hv]

theorem pow256_eq (k : Nat) : (256 : Nat) ^ k = 2 ^ (8 * k) := by
  rw [pow_mul]; norm_num

/-- The bytes a stream with target order `BigEndian` stores for a `k`-byte
value are its big-endian byte sequence, on either host. -/
theorem natBytes_condswap_big (native : Endian) {k v : Nat} :
    natBytes native k (condswap native Endian.big k v) = (toBytesLE k v).reverse := by
  cases native with
  | little =>
    have hmem : ∀ b ∈ (toBytesLE k v).reverse, b < 256 :=
      fun b hb => toBytesLE_lt k v b (List.mem_reverse.mp hb)
    have hlen : (toBytesLE k v).reverse.length = k := by
      rw [List.length_reverse, length_toBytesLE]
    have h1 := toBytesLE_fromBytesLE (toBytesLE k v).reverse hmem
    rw [hlen] at h1
    simp only [condswap, if_pos (by decide : Endian.big ≠ Endian.little),
      natBytes, byteswap]
    exact h1
  | big =>
    simp only [condswap, if_neg (by decide : ¬ Endian.big ≠ Endian.big), natBytes]

/-- The bytes a stream with target order `LittleEndian` stores for a `k`-byte
value are its little-endian byte sequence, on either host. -/
theorem natBytes_condswap_little (native : Endian) {k v : Nat} :
    natBytes native k (condswap native Endian.little k v) = toBytesLE k v := by
  cases native with
  | little =>
    simp only [condswap, if_neg (by decide : ¬ Endian.little ≠ Endian.little),
      natBytes]
  | big =>
    have hmem : ∀ b ∈ (toBytesLE k v).reverse, b < 256 :=
      fun b hb => toBytesLE_lt k v b (List.mem_reverse.mp hb)
    have hlen : (toBytesLE k v).reverse.length = k := by
      rw [List.length_reverse, length_toBytesLE]
    have h1 := toBytesLE_fromBytesLE (toBytesLE k v).reverse hmem
    rw [hlen] at h1
    simp only [condswap, if_pos (by decide : Endian.little ≠ Endian.big),
      natBytes, byteswap]
    rw [h1, List.reverse_reverse]

end DataStream

namespace DataStream

/-- A sequence of sequential `operator<<` calls: each element is the byte
width of the written type together with the written bit pattern. -/
def writeSeq (native e : Endian) : Stream → List (Nat × Nat) → Except Err Stream
  | s, [] => .ok s
  | s, (k, v) :: rest =>
    match Stream.writeValue native e s k v with
    | .error er => .error er
    | .ok s' => writeSeq native e s' rest

/-- A sequence of sequential `operator>>` calls for the given byte widths,
collecting the values read. -/
def readSeq (native e : Endian) :
    Stream → List Nat → Except Err (List Nat × Stream)
  | s, [] => .ok ([], s)
  | s, k :: rest =>
    match Stream.readValue native e s k with
    | .error er => .error er
    | .ok (v, s') =>
      match readSeq native e s' rest with
      | .error er => .error er
      | .ok (vs, s'') => .ok (v :: vs, s'')

/-- Total byte size of a write sequence (`Σ size(Ti)`). -/
def sizeSum (L : List (Nat × Nat)) : Nat := (L.map Prod.fst).sum

theorem writeSeq_cons_ok {native e : Endian} {s s1 : Stream} {k v : Nat}
    {rest : List (Nat × Nat)} (h : Stream.writeValue native e s k v = .ok s1) :
    writeSeq native e s ((k, v) :: rest) = writeSeq native e s1 rest := by
  simp [writeSeq, h]

theorem readSeq_cons_ok {native e : Endian} {s s1 : Stream} {k v : Nat}
    {ks : List Nat} {vs : List Nat} {s2 : Stream}
    (h : Stream.readValue native e s k = .ok (v, s1))
    (h2 : readSeq native e s1 ks = .ok (vs, s2)) :
    readSeq native e s (k :: ks) = .ok (v :: vs, s2) := by
  simp [readSeq, h, h2]

/-- Main invariant of a successful sequence of sequential writes, by
induction along the sequence: the cursor advances by exactly the summed
sizes, the buffer keeps its length, bytes strictly before the starting
cursor are untouched, and reading the same type sequence back from the
starting cursor returns exactly the written values. -/
theorem writeSeq_spec (native e : Endian) :
    ∀ (L : List (Nat × Nat)) (s : Stream),
    s.index + sizeSum L ≤ s.data.length →
    (∀ p ∈ L, p.2 < 256 ^ p.1) →
    ∃ s', writeSeq native e s L = .ok s'
      ∧ s'.index = s.index + sizeSum L
      ∧ s'.data.length = s.data.length
      ∧ (∀ i k, i + k ≤ s.index → slice s'.data i k = slice s.data i k)
      ∧ readSeq native e ⟨s'.data, s.index⟩ (L.map Prod.fst)
          = .ok (L.map Prod.snd, ⟨s'.data, s'.index⟩) := by
  intro L
  induction L with
  | nil =>
    intro s _ _
    exact ⟨s, rfl, by simp [sizeSum], rfl, fun i k _ => rfl, by simp [readSeq, sizeSum]⟩
  | cons p rest ih =>
    obtain ⟨k, v⟩ := p
    intro s hfit hvals
    have hsum : sizeSum ((k, v) :: rest) = k + sizeSum rest := by
      simp [sizeSum]
    have hk : s.index + k ≤ s.data.length := by rw [hsum] at hfit; omega
    have hv : v < 256 ^ k := hvals (k, v) (List.mem_cons_self _ _)
    have hw := writeValue_ok native e s k v hk
    have hlenbs : (natBytes native k (condswap native e k v)).length = k :=
      length_natBytes native k _
    have hlen1 : (setBytes s.data s.index
        (natBytes native k (condswap native e k v))).length = s.data.length :=
      length_setBytes s.data _ s.index (by rw [hlenbs]; omega)
    rw [hsum] at hfit
    have hfit1 : (s.index + k) + sizeSum rest ≤ (setBytes s.data s.index
        (natBytes native k (condswap native e k v))).length := by
      rw [hlen1]; omega
    obtain ⟨s', hws, hidx, hlen', hpres, hread⟩ :=
      ih ⟨setBytes s.data s.index (natBytes native k (condswap native e k v)),
          s.index + k⟩ hfit1 (fun q hq => hvals q (List.mem_cons_of_mem _ hq))
    dsimp only at hidx hlen' hpres hread
    refine ⟨s', ?_, ?_, ?_, ?_, ?_⟩
    · rw [writeSeq_cons_ok hw]; exact hws
    · rw [hidx, hsum]; omega
    · rw [hlen', hlen1]
    · intro i k' hik
      rw [hpres i k' (by omega)]
      exact slice_setBytes_of_le s.data _ i k' s.index hik (by omega)
    · have hsl : slice s'.data s.index k
          = natBytes native k (condswap native e k v) := by
        have h1 := hpres s.index k (by omega)
        rw [h1]
        have h2 := slice_setBytes_self s.data
          (natBytes native k (condswap native e k v)) s.index
          (by rw [hlenbs]; omega)
        rw [hlenbs] at h2
        exact h2
      have hrd := readValue_of_slice native e
        ⟨s'.data, s.index⟩ k v (by dsimp only; rw [hlen', hlen1]; omega) hv hsl
      simp only [List.map_cons]
      exact readSeq_cons_ok hrd hread

/-- `Stream::set` never touches the sequential cursor on its checked path:
a direct write that completes returns a stream with the same `index`. -/
theorem set_preserves_index {native e : Endian} {s s' : Stream}
    {k v start : Nat} (h : Stream.set native e s k v start = .ok s') :
    s'.index = s.index := by
  simp only [Stream.set] at h
  split at h
  · simp at h
  · split at h
    · injection h with h
      rw [← h]
    · simp at h

/-- C5 (evaluation of the code, including the failing input): sequential
`operator<<`/`operator>>` whose cursor plus the type's byte size exceeds the
capacity always fail with the bounds error, and so do direct `set`/`get` at
every offset whose `start + sizeof(T)` does not overflow `std::size_t`; in
all those cases the check precedes every byte copy and cursor increment
(DataStream.hpp:104-107, 119-122, 211-213, 224-226), so the error carries no
successor state and buffer and cursor are unchanged.  But at
`start_index = SIZE_MAX` with `sizeof(T) = 2` on a 3-byte buffer the sum
wraps to `1`, the test `1 > 3` fails, nothing is thrown, and `copy_n`
accesses memory far out of bounds — the claim's "always fails with
BoundsError, state unchanged" is false of the program there. -/
theorem bounds_error_enforcement (native e : Endian) (s : Stream)
    (k v start : Nat) :
    (s.data.length < s.index + k →
      Stream.writeValue native e s k v = .error .boundsError) ∧
    (s.data.length < s.index + k →
      Stream.readValue native e s k = .error .boundsError) ∧
    (s.data.length < start + k → start + k < size_t_mod →
      Stream.set native e s k v start = .boundsError) ∧
    (s.data.length < start + k → start + k < size_t_mod →
      Stream.get native e s k start = .boundsError) ∧
    Stream.set Endian.little Endian.big ⟨[0, 0, 0], 0⟩ 2 1 (size_t_mod - 1)
      = .unchecked ∧
    Stream.get Endian.little Endian.big ⟨[0, 0, 0], 0⟩ 2 (size_t_mod - 1)
      = .unchecked := by
  refine ⟨?_, ?_, ?_, ?_, by decide, by decide⟩
  · intro h
    simp only [Stream.writeValue, Stream.writeBytes, length_natBytes]
    rw [if_pos (by omega)]
  · intro h
    simp only [Stream.readValue, Stream.readBytes]
    rw [if_pos (by omega)]
  · intro h hw
    simp only [Stream.set]
    rw [Nat.mod_eq_of_lt hw, if_pos (by omega)]
  · intro h hw
    simp only [Stream.get]
    rw [Nat.mod_eq_of_lt hw, if_pos (by omega)]

/-- Witness for C5: a 3-byte buffer with the cursor at 2 rejects every
2-byte access, sequential or at the (non-wrapping) offset 2. -/
theorem bounds_error_enforcement_witness :
    Stream.writeValue Endian.little Endian.big ⟨[0, 0, 0], 2⟩ 2 1
        = .error .boundsError ∧
    Stream.readValue Endian.little Endian.big ⟨[0, 0, 0], 2⟩ 2
        = .error .boundsError ∧
    Stream.set Endian.little Endian.big ⟨[0, 0, 0], 2⟩ 2 1 2
        = .boundsError ∧
    Stream.get Endian.little Endian.big ⟨[0, 0, 0], 2⟩ 2 2
        = .boundsError := by
  have h := bounds_error_enforcement Endian.little Endian.big ⟨[0, 0, 0], 2⟩
    2 1 2
  exact ⟨h.1 (by norm_num), h.2.1 (by norm_num),
    h.2.2.1 (by norm_num) (by norm_num [size_t_mod]),
    h.2.2.2.1 (by norm_num) (by norm_num [size_t_mod])⟩

/-- C6 (evaluation of the code, including the failing input): starting from
a fresh buffer-backed stream, `N` successful sequential writes of types of
byte sizes `k₁..kₙ` leave the cursor at exactly `Σ kᵢ` (each write advancing
it by its own size, by `writeSeq_spec`'s induction) and a subsequent
sequential read of the same type sequence recovers exactly the values
written.  A direct `set` that completes its checked path never changes the
cursor, and at every offset whose `start + sizeof(T)` does not overflow
`std::size_t` the checked path is all there is (`get` is a `const` method
and cannot change the stream at all, which the embedding reflects in its
type).  But at `start_index = 2^64 - 2` with `sizeof(T) = 2` the sum wraps
to `0`, the bounds test passes, and the source performs an unchecked
out-of-bounds `copy_n` — undefined behavior with no cursor guarantee — so
the claim's "set at any explicit offset never changes the cursor" is not
honored by the program there. -/
theorem sequential_cursor_and_roundtrip (native e : Endian)
    (L : List (Nat × Nat)) (buf : List Nat)
    (hfit : sizeSum L ≤ buf.length)
    (hvals : ∀ p ∈ L, p.2 < 2 ^ (8 * p.1)) :
    (∃ s', writeSeq native e ⟨buf, 0⟩ L = .ok s'
      ∧ s'.index = sizeSum L
      ∧ readSeq native e ⟨s'.data, 0⟩ (L.map Prod.fst)
          = .ok (L.map Prod.snd, ⟨s'.data, sizeSum L⟩))
    ∧ (∀ (t t' : Stream) (k v start : Nat),
        Stream.set native e t k v start = .ok t' → t'.index = t.index)
    ∧ (∀ (t : Stream) (k v start : Nat), start + k < size_t_mod →
        Stream.set native e t k v start ≠ .unchecked)
    ∧ Stream.set Endian.little Endian.big ⟨[0, 0, 0], 0⟩ 2 1 (size_t_mod - 2)
        = .unchecked := by
  refine ⟨?_, ?_, ?_, by decide⟩
  · have hvals' : ∀ p ∈ L, p.2 < 256 ^ p.1 := by
      intro p hp
      rw [pow256_eq]
      exact hvals p hp
    obtain ⟨s', hws, hidx, _, _, hread⟩ :=
      writeSeq_spec native e L ⟨buf, 0⟩ (by dsimp only; omega) hvals'
    dsimp only at hidx hread
    rw [Nat.zero_add] at hidx
    refine ⟨s', hws, hidx, ?_⟩
    rw [← hidx]
    exact hread
  · intro t t' k v start h
    exact set_preserves_index h
  · intro t k v start hw
    rw [set_no_wrap native e t k v start hw]
    split <;> simp

/-- Witness for C6: writing a 2-byte, a 1-byte and a 4-byte value into a
7-byte buffer leaves the cursor at 7 and reads back the same three values;
`set` keeps the cursor wherever it was on every checked call, and every
non-wrapping offset is checked. -/
theorem sequential_cursor_and_roundtrip_witness :
    (∃ s', writeSeq Endian.little Endian.big ⟨[0, 0, 0, 0, 0, 0, 0], 0⟩
        [(2, 0x0102), (1, 0xAB), (4, 0xDEADBEEF)] = .ok s'
      ∧ s'.index = sizeSum [(2, 0x0102), (1, 0xAB), (4, 0xDEADBEEF)]
      ∧ readSeq Endian.little Endian.big ⟨s'.data, 0⟩
          ([(2, 0x0102), (1, 0xAB), (4, 0xDEADBEEF)].map Prod.fst)
          = .ok ([(2, 0x0102), (1, 0xAB), (4, 0xDEADBEEF)].map Prod.snd,
              ⟨s'.data, sizeSum [(2, 0x0102), (1, 0xAB), (4, 0xDEADBEEF)]⟩))
    ∧ (∀ (t t' : Stream) (k v start : Nat),
        Stream.set Endian.little Endian.big t k v start = .ok t'
          → t'.index = t.index)
    ∧ (∀ (t : Stream) (k v start : Nat), start + k < size_t_mod →
        Stream.set Endian.little Endian.big t k v start ≠ .unchecked)
    ∧ Stream.set Endian.little Endian.big ⟨[0, 0, 0], 0⟩ 2 1 (size_t_mod - 2)
        = .unchecked :=
  sequential_cursor_and_roundtrip Endian.little Endian.big
    [(2, 0x0102), (1, 0xAB), (4, 0xDEADBEEF)] [0, 0, 0, 0, 0, 0, 0]
    (by simp [sizeSum]) (by decide)

/-- C10: the byte-swap helper is an involution.  For every supported
arithmetic type of byte width `k` (integers of 8–64 bits have `k ∈ {1,2,4,8}`,
floating point of 16/32/64 bits has `k ∈ {2,4,8}`) and every `k`-byte bit
pattern `v` — NaN patterns included, since all of `[0, 2^(8k))` is covered —
`byteswap (byteswap v)` is bit-for-bit identical to `v`. -/
theorem byteswap_involution (k v : Nat) (hv : v < 2 ^ (8 * k)) :
    byteswap k (byteswap k v) = v :=
  byteswap_byteswap (by rw [pow256_eq]; exact hv)

/-- Witness for C10 at width 2 with the `float16` quiet-NaN pattern
`0x7E00`. -/
theorem byteswap_involution_witness :
    byteswap 2 (byteswap 2 0x7E00) = 0x7E00 :=
  byteswap_involution 2 0x7E00 (by norm_num)

/-- Truncation of an exact rational toward zero: the host's default
float→integer conversion applied at `FixedPointQuantizer`'s cast boundary.
`Int.tdiv` is truncating division and the denominator is positive. -/
def truncRat (q : ℚ) : ℤ := q.num.tdiv q.den

theorem truncRat_eq_floor {q : ℚ} (h : 0 ≤ q) : truncRat q = ⌊q⌋ := by
  unfold truncRat
  rw [Rat.floor_def]
  exact Int.tdiv_eq_ediv (Rat.num_nonneg.mpr h) (Int.natCast_nonneg _)

theorem truncRat_intCast (c : ℤ) : truncRat (c : ℚ) = c := by
  unfold truncRat
  rw [Rat.num_intCast, Rat.den_intCast]
  exact Int.tdiv_one c

/-- `FixedPointQuantizer::to_fpq` (FixedPointQuantizer.hpp:93-99), the
quantization arithmetic in exact rational arithmetic: clamp `value` into
`[minimum, maximum]` (upper bound first, as in the source), normalise by
dividing by the range — the source omits subtracting `minimum` in the
numerator — then either hit the exact-midpoint special case `2^(Bits-1)` or
truncate `normalised * (2^Bits - 1)` at the integer cast. -/
def to_fpq (Bits : Nat) (minimum maximum value : ℚ) : ℤ :=
  let v1 := if value > maximum then maximum else value
  let v2 := if v1 < minimum then minimum else v1
  let normalised := v2 / (maximum - minimum)
  if normalised = 1 / 2 then 2 ^ (Bits - 1)
  else truncRat (normalised * (2 ^ Bits - 1))

/-- `FixedPointQuantizer::from_fpq` (FixedPointQuantizer.hpp:101-104):
denormalise the code by `2^Bits - 1` and scale by the range — again without
re-adding `minimum`, mirroring the source. -/
def from_fpq (Bits : Nat) (minimum maximum : ℚ) (code : ℤ) : ℚ :=
  ((code : ℚ) / (2 ^ Bits - 1)) * (maximum - minimum)

/-- Closed form of `to_fpq` for `minimum = 0`, `maximum = 1`,
`codeWidth = 16`: clamp to `[0,1]`, then midpoint test and truncation. -/
theorem to_fpq_zero_one (v : ℚ) :
    to_fpq 16 0 1 v
      = if max 0 (min 1 v) = 1 / 2 then 32768
        else truncRat (max 0 (min 1 v) * 65535) := by
  simp only [to_fpq]
  have h1 : (if v > (1 : ℚ) then (1 : ℚ) else v) = min 1 v := by
    by_cases h : (1 : ℚ) < v
    · rw [if_pos h, min_eq_left (le_of_lt h)]
    · rw [if_neg h, min_eq_right (le_of_not_lt h)]
  have h2 : (if min 1 v < (0 : ℚ) then (0 : ℚ) else min 1 v)
      = max 0 (min 1 v) := by
    by_cases h : min 1 v < 0
    · rw [if_pos h, max_eq_left (le_of_lt h)]
    · rw [if_neg h, max_eq_right (le_of_not_lt h)]
  rw [h1, h2]
  norm_num

/-- C2: for the quantizer with `minimum = 0`, `maximum = 1`,
`codeWidth = 16`: `encode 0 = 0`; `encode 1 = 2^16 - 1`; the true midpoint
`0.5` encodes to exactly `2^15` (the explicit special case in the source);
every input below `0` encodes to the same code as `0` and every input above
`1` to the same code as `1`; and the mapping uses the full code range
`[0, 2^16 - 1]`: every produced code lies in it and every code in it is
attained. -/
theorem quantizer_code_range (v : ℚ) :
    to_fpq 16 0 1 0 = 0 ∧
    to_fpq 16 0 1 1 = 2 ^ 16 - 1 ∧
    to_fpq 16 0 1 (1 / 2) = 2 ^ 15 ∧
    (v < 0 → to_fpq 16 0 1 v = to_fpq 16 0 1 0) ∧
    (1 < v → to_fpq 16 0 1 v = to_fpq 16 0 1 1) ∧
    0 ≤ to_fpq 16 0 1 v ∧ to_fpq 16 0 1 v ≤ 2 ^ 16 - 1 ∧
    (∀ c : ℤ, 0 ≤ c → c ≤ 2 ^ 16 - 1 →
      to_fpq 16 0 1 ((c : ℚ) / (2 ^ 16 - 1)) = c) := by
  have hw0 : (0 : ℚ) ≤ max 0 (min 1 v) := le_max_left 0 _
  have hw1 : max 0 (min 1 v) ≤ 1 := max_le (by norm_num) (min_le_left 1 v)
  have e0 : to_fpq 16 0 1 0 = 0 := by
    rw [to_fpq_zero_one, min_eq_right (by norm_num), max_self,
      if_neg (by norm_num),
      show ((0 : ℚ) * 65535) = ((0 : ℤ) : ℚ) by norm_num, truncRat_intCast]
  have e1 : to_fpq 16 0 1 1 = 2 ^ 16 - 1 := by
    rw [to_fpq_zero_one, min_self, max_eq_right (by norm_num),
      if_neg (by norm_num),
      show ((1 : ℚ) * 65535) = ((65535 : ℤ) : ℚ) by norm_num, truncRat_intCast]
    norm_num
  refine ⟨e0, e1, ?_, ?_, ?_, ?_, ?_, ?_⟩
  · rw [to_fpq_zero_one, min_eq_right (by norm_num),
      max_eq_right (by norm_num), if_pos rfl]
    norm_num
  · intro hv
    rw [to_fpq_zero_one, min_eq_right (by linarith),
      max_eq_left (by linarith), e0, if_neg (by norm_num),
      show ((0 : ℚ) * 65535) = ((0 : ℤ) : ℚ) by norm_num, truncRat_intCast]
  · intro hv
    rw [to_fpq_zero_one, min_eq_left (by linarith),
      max_eq_right (by norm_num), e1, if_neg (by norm_num),
      show ((1 : ℚ) * 65535) = ((65535 : ℤ) : ℚ) by norm_num, truncRat_intCast]
    norm_num
  · rw [to_fpq_zero_one]
    by_cases h : max 0 (min 1 v) = 1 / 2
    · rw [if_pos h]; norm_num
    · rw [if_neg h, truncRat_eq_floor (by positivity)]
      exact Int.le_floor.mpr (by push_cast; positivity)
  · rw [to_fpq_zero_one]
    by_cases h : max 0 (min 1 v) = 1 / 2
    · rw [if_pos h]; norm_num
    · rw [if_neg h, truncRat_eq_floor (by positivity)]
      have hb : max 0 (min 1 v) * 65535 ≤ 65535 := by nlinarith
      have h2 : (⌊max 0 (min 1 v) * 65535⌋ : ℚ) ≤ 65535 :=
        le_trans (Int.floor_le _) hb
      have h3 : ⌊max 0 (min 1 v) * 65535⌋ ≤ 65535 := by exact_mod_cast h2
      norm_num
      exact h3
  · intro c hc0 hc1
    have hden : ((2 : ℚ) ^ 16 - 1) = 65535 := by norm_num
    have hc1' : c ≤ 65535 := by
      have h65 : ((2 : ℤ) ^ 16 - 1) = 65535 := by norm_num
      rw [h65] at hc1
      exact hc1
    rw [hden, to_fpq_zero_one]
    have h0 : (0 : ℚ) ≤ (c : ℚ) / 65535 := by positivity
    have h1 : (c : ℚ) / 65535 ≤ 1 := by
      rw [div_le_one (by norm_num)]
      exact_mod_cast hc1'
    rw [min_eq_right h1, max_eq_right h0]
    have hne : (c : ℚ) / 65535 ≠ 1 / 2 := by
      intro h
      rw [div_eq_div_iff (by norm_num) (by norm_num)] at h
      have h2 : c * 2 = 65535 := by exact_mod_cast h
      omega
    rw [if_neg hne, div_mul_cancel₀ _ (by norm_num : (65535 : ℚ) ≠ 0)]
    exact truncRat_intCast c

/-- Witness for C2's conditional clauses: `-3` encodes like `0`, `2` encodes
like `1`, and the code `21845` is hit exactly by its own preimage. -/
theorem quantizer_code_range_witness :
    to_fpq 16 0 1 (-3) = to_fpq 16 0 1 0 ∧
    to_fpq 16 0 1 2 = to_fpq 16 0 1 1 ∧
    to_fpq 16 0 1 (((21845 : ℤ) : ℚ) / (2 ^ 16 - 1)) = 21845 :=
  ⟨((quantizer_code_range (-3)).2.2.2.1 (by norm_num)),
   ((quantizer_code_range 2).2.2.2.2.1 (by norm_num)),
   ((quantizer_code_range 0).2.2.2.2.2.2.2 21845 (by norm_num) (by norm_num))⟩

/-- C3: for the quantizer with `minimum = 0`, `maximum = 1`,
`codeWidth = 16`, decoding the encoding of any `v ∈ [0,1]` lands within
`1 / (2^16 - 1)` of `v`.  With `minimum = 0` the omitted `minimum` offset in
both `to_fpq` and `from_fpq` is the same (zero) term, so `from_fpq` is the
algebraic inverse of the normalisation `to_fpq` actually performs, and the
round trip only loses the truncation (or midpoint) error. -/
theorem quantizer_roundtrip_tolerance (v : ℚ) (h0 : 0 ≤ v) (h1 : v ≤ 1) :
    |from_fpq 16 0 1 (to_fpq 16 0 1 v) - v| ≤ 1 / (2 ^ 16 - 1) := by
  have hden : ((2 : ℚ) ^ 16 - 1) = 65535 := by norm_num
  rw [to_fpq_zero_one, min_eq_right h1, max_eq_right h0]
  by_cases hmid : v = 1 / 2
  · rw [if_pos hmid, hmid]
    simp only [from_fpq]
    rw [hden, abs_le]
    constructor <;> norm_num
  · rw [if_neg hmid, truncRat_eq_floor (by positivity)]
    simp only [from_fpq]
    have hfl : (⌊v * 65535⌋ : ℚ) ≤ v * 65535 := Int.floor_le _
    have hfl2 : v * 65535 < (⌊v * 65535⌋ : ℚ) + 1 := Int.lt_floor_add_one _
    rw [hden, abs_le]
    constructor
    · nlinarith
    · nlinarith

/-- Witness for C3 at `v = 1/3`. -/
theorem quantizer_roundtrip_tolerance_witness :
    |from_fpq 16 0 1 (to_fpq 16 0 1 (1 / 3)) - 1 / 3| ≤ 1 / (2 ^ 16 - 1) :=
  quantizer_roundtrip_tolerance (1 / 3) (by norm_num) (by norm_num)

end DataStream

namespace DataStream.Mode

/-- `DataStream::Mode::Input` (DataStream.hpp:74). -/
def Input : Nat := 1

/-- `DataStream::Mode::Output` (DataStream.hpp:75). -/
def Output : Nat := 2

end DataStream.Mode

namespace DataStream

/-- The default `mode` template argument of `Stream` (DataStream.hpp:80):
`Mode::Input | Mode::Output`. -/
def modeDefault : Nat := Mode.Input ||| Mode.Output

/-- Whether a direction capability set includes the write capability. -/
def includesWrite (mode : Nat) : Bool := mode &&& Mode.Output == Mode.Output

/-- Whether a direction capability set includes the read capability. -/
def includesRead (mode : Nat) : Bool := mode &&& Mode.Input == Mode.Input

/-- The requires-clause gating `operator<<` (DataStream.hpp:185): the exact
equality `mode == DataStream::Mode::Output`. -/
def seqWriteEnabled (mode : Nat) : Bool := mode == Mode.Output

/-- The requires-clause gating `operator>>` (DataStream.hpp:195): the exact
equality `mode == DataStream::Mode::Input`. -/
def seqReadEnabled (mode : Nat) : Bool := mode == Mode.Input

/-- The requires-clause gating `set` (DataStream.hpp:205):
`(mode & Mode::Output) == Mode::Output`, an inclusion test. -/
def setEnabled (mode : Nat) : Bool := mode &&& Mode.Output == Mode.Output

/-- The requires-clause gating `get` (DataStream.hpp:219):
`(mode & Mode::Input) == Mode::Input`. -/
def getEnabled (mode : Nat) : Bool := mode &&& Mode.Input == Mode.Input

/-- C7 (evaluation of the code at the failing input): the default
read-and-write mode `Input | Output` does include the write capability, yet
the requires-clause of sequential `operator<<` — `mode == Mode::Output`, an
exact-equality test unlike the inclusion test used by `set`/`get` and by the
private `write`/`read` — rejects it, contradicting the claim that sequential
writes are enabled for every direction including Write; symmetrically for
`operator>>`.  The remaining conjuncts record the parts of the claim the
code does satisfy: a write-only stream accepts sequential writes, a
read-only stream rejects `set` and accepts sequential reads, and a
write-only stream rejects `get`. -/
theorem direction_gating_eval :
    includesWrite modeDefault = true ∧ seqWriteEnabled modeDefault = false ∧
    includesRead modeDefault = true ∧ seqReadEnabled modeDefault = false ∧
    seqWriteEnabled Mode.Output = true ∧ setEnabled Mode.Input = false ∧
    seqReadEnabled Mode.Input = true ∧ getEnabled Mode.Output = false := by
  decide

/-- One uppercase hexadecimal digit, the rendering `std::hex` +
`std::uppercase` gives each nibble. -/
def hexChar (n : Nat) : Char :=
  if n < 10 then Char.ofNat (48 + n) else Char.ofNat (55 + n)

/-- The `%02X`-style rendering of one byte: `std::setw(2)` with
`std::setfill('0')` zero-pads to exactly two uppercase hex digits. -/
def byteHexChars (b : Nat) : List Char := [hexChar (b / 16), hexChar (b % 16)]

/-- The loop of `Stream::string` (DataStream.hpp:242-243): every byte of the
whole backing region in storage order, with the delimiter appended after
each byte except the last. -/
def hexDumpChars : List Nat → List Char → List Char
  | [], _ => []
  | [b], _ => byteHexChars b
  | b :: rest, d => byteHexChars b ++ d ++ hexDumpChars rest d

/-- `Stream::string` (DataStream.hpp:236-246), buffer branch: the returned
hex-dump string. -/
def Stream.string (buf : List Nat) (d : String) : String :=
  ⟨hexDumpChars buf d.data⟩

theorem hexDumpChars_eq_intercalate (buf : List Nat) (d : List Char) :
    hexDumpChars buf d = List.intercalate d (buf.map byteHexChars) := by
  induction buf with
  | nil => rfl
  | cons b rest ih =>
    cases rest with
    | nil => simp [hexDumpChars, List.intercalate]
    | cons c t =>
      show byteHexChars b ++ d ++ hexDumpChars (c :: t) d = _
      rw [ih]
      simp [List.intercalate, List.intersperse, List.append_assoc]

/-- C8: the hex dump renders every byte of the entire backing region in
storage order as two zero-padded uppercase hex digits, joined by the
caller-supplied delimiter with none after the last byte (the
`List.intercalate` characterisation), and in particular the buffer
`[0x00, 0xFF, 0x1A]` with delimiter `" "` yields `"00 FF 1A"`. -/
theorem hex_dump_format :
    Stream.string [0x00, 0xFF, 0x1A] " " = "00 FF 1A" ∧
    (∀ (buf : List Nat) (d : String),
      Stream.string buf d = ⟨List.intercalate d.data (buf.map byteHexChars)⟩) ∧
    (∀ b : Nat, (byteHexChars b).length = 2) := by
  refine ⟨by decide, ?_, fun b => rfl⟩
  intro buf d
  rw [Stream.string, hexDumpChars_eq_intercalate]

/-- The formatting state of the shared global `std::cout` stream that
`Stream::string` touches: base field (hex or dec), uppercase flag, fill
character. -/
structure CoutFmt : Type where
  baseHexFlag : Bool
  upperFlag : Bool
  fill : Char
deriving DecidableEq, Repr

/-- `Stream::string` with the global `std::cout` formatting state threaded
explicitly.  The dump itself is built in a local `ostringstream`, but the
statement `std::cout << std::dec << std::nouppercase << std::setfill(' ')`
(DataStream.hpp:244) unconditionally overwrites the global `std::cout`
formatting state before returning. -/
def stringWithCoutFmt (buf : List Nat) (d : String) (_cout : CoutFmt) :
    String × CoutFmt :=
  (Stream.string buf d, ⟨false, false, ' '⟩)

/-- C9 (evaluation of the code at the failing input): calling the hex dump
with `std::cout` previously configured to hex/uppercase/fill `'x'` leaves
`std::cout` reset to dec/nouppercase/fill `' '` — an observable change of
global formatting state — even though the returned string is the correct
`"00"`.  This refutes the claim that the operation changes no caller-visible
global formatting state. -/
theorem hex_dump_mutates_cout_format :
    (stringWithCoutFmt [0x00] "" ⟨true, true, 'x'⟩).2 ≠ ⟨true, true, 'x'⟩ ∧
    (stringWithCoutFmt [0x00] "" ⟨true, true, 'x'⟩).1 = "00" := by
  constructor
  · decide
  · rfl

/-- C1: for every supported arithmetic type (modelled by its byte width `k`),
every stream byte order `e`, every host byte order `native` and every
representable bit pattern `v` (NaN and infinity patterns included),
sequentially writing `v` through `operator<<` on a buffer-backed stream and
then sequentially reading the same type back through `operator>>` over the
same bytes returns `v` bit-for-bit. -/
theorem stream_write_read_roundtrip (native e : Endian) (k v : Nat)
    (buf : List Nat) (hv : v < 2 ^ (8 * k)) (hk : k ≤ buf.length) :
    ∃ s', Stream.writeValue native e ⟨buf, 0⟩ k v = .ok s' ∧
      Stream.readValue native e ⟨s'.data, 0⟩ k = .ok (v, ⟨s'.data, k⟩) := by
  have hv' : v < 256 ^ k := by rw [pow256_eq]; exact hv
  have hlen : (natBytes native k (condswap native e k v)).length = k :=
    length_natBytes native k _
  have hw := writeValue_ok native e ⟨buf, 0⟩ k v
    (by simpa using hk)
  refine ⟨_, hw, ?_⟩
  have hblen : 0 + (natBytes native k (condswap native e k v)).length
      ≤ buf.length := by rw [hlen]; omega
  have hL := length_setBytes buf (natBytes native k (condswap native e k v))
    0 hblen
  have hslice := slice_setBytes_self buf
    (natBytes native k (condswap native e k v)) 0 hblen
  rw [hlen] at hslice
  have hr := readValue_of_slice native e
    ⟨setBytes buf 0 (natBytes native k (condswap native e k v)), 0⟩ k v
    (by simpa [hL] using hk) hv' hslice
  simpa using hr

/-- Witness for C1: host little-endian, stream big-endian, the 2-byte
`float16` NaN pattern `0x7E00` written to and read back from a 2-byte
buffer. -/
theorem stream_write_read_roundtrip_witness :
    ∃ s', Stream.writeValue Endian.little Endian.big ⟨[0, 0], 0⟩ 2 0x7E00
        = .ok s' ∧
      Stream.readValue Endian.little Endian.big ⟨s'.data, 0⟩ 2
        = .ok (0x7E00, ⟨s'.data, 2⟩) :=
  stream_write_read_roundtrip Endian.little Endian.big 2 0x7E00 [0, 0]
    (by norm_num) (by norm_num)

/-- C4: a stream with `byteOrder = BigEndian` stores exactly the big-endian
byte sequence of the value, and a `LittleEndian` stream the little-endian
sequence, regardless of the host byte order `native`.  Values are modelled
by their bit patterns, so the floating-point case is exactly the source's
bit-pattern byte reversal (bit-cast to the same-width unsigned integer,
reverse bytes, bit-cast back), with no arithmetic on the float. -/
theorem stream_endianness_correct (native : Endian) (k v : Nat)
    (buf : List Nat) (hv : v < 2 ^ (8 * k)) (hk : k ≤ buf.length) :
    (∃ s', Stream.writeValue native Endian.big ⟨buf, 0⟩ k v = .ok s' ∧
        slice s'.data 0 k = (toBytesLE k v).reverse) ∧
    (∃ s', Stream.writeValue native Endian.little ⟨buf, 0⟩ k v = .ok s' ∧
        slice s'.data 0 k = toBytesLE k v) := by
  have hv' : v < 256 ^ k := by rw [pow256_eq]; exact hv
  constructor
  · have hw := writeValue_ok native Endian.big ⟨buf, 0⟩ k v
      (by simpa using hk)
    refine ⟨_, hw, ?_⟩
    have hlen : (natBytes native k (condswap native Endian.big k v)).length
        = k := length_natBytes native k _
    have hslice := slice_setBytes_self buf
      (natBytes native k (condswap native Endian.big k v)) 0
      (by rw [hlen]; omega)
    rw [hlen] at hslice
    rw [hslice]
    exact natBytes_condswap_big native
  · have hw := writeValue_ok native Endian.little ⟨buf, 0⟩
      k v (by simpa using hk)
    refine ⟨_, hw, ?_⟩
    have hlen : (natBytes native k (condswap native Endian.little k v)).length
        = k := length_natBytes native k _
    have hslice := slice_setBytes_self buf
      (natBytes native k (condswap native Endian.little k v)) 0
      (by rw [hlen]; omega)
    rw [hlen] at hslice
    rw [hslice]
    exact natBytes_condswap_little native

/-- Witness for C4: the 4-byte value `0x01020304` written on a little-endian
host lands as `[1, 2, 3, 4]` for a big-endian stream and `[4, 3, 2, 1]` for a
little-endian stream. -/
theorem stream_endianness_correct_witness :
    (∃ s', Stream.writeValue Endian.little Endian.big ⟨[0, 0, 0, 0], 0⟩ 4
          0x01020304 = .ok s' ∧
        slice s'.data 0 4 = (toBytesLE 4 0x01020304).reverse) ∧
    (∃ s', Stream.writeValue Endian.little Endian.little ⟨[0, 0, 0, 0], 0⟩ 4
          0x01020304 = .ok s' ∧
        slice s'.data 0 4 = toBytesLE 4 0x01020304) :=
  stream_endianness_correct Endian.little 4 0x01020304 [0, 0, 0, 0]
    (by norm_num) (by norm_num)

end DataStream
